import Mathlib

/-!
Verification development for the `theta` library.

The embedding covers `theta/queues.py` (`EvictingQueue`, together with its
error types `QueueTimeout` and `QueueStopped`) and `theta/store.py`
(`Store` and `Writer`).  Python deques, dicts and closures are modelled by
Lean lists, functions into `Option`, and explicit state passing; exceptions
become `Except`/`Option` results.  Blocking behaviour is modelled at the
*decision point*: `get` is the function the code computes once
`Condition.wait_for` hands control back with the predicate `_unblocked`
evaluated on the current state (a timed call whose predicate is still false
raises `QueueTimeout`; an untimed call would keep waiting, a case no
theorem below needs).
-/

namespace Theta

/-! ### EvictingQueue (theta/queues.py) -/

/-- The two queue exceptions, `QueueTimeout` and `QueueStopped`. -/
inductive QueueError where
  | queueTimeout
  | queueStopped
deriving DecidableEq, Repr

/-- State of an `EvictingQueue`: `q` is the deque `self._q` (head = oldest,
i.e. the left end of the deque), `capacity` its `maxlen` (`none` when the
queue is unbounded), `stopEvent` the flag of `self._stop_event`. -/
structure EvictingQueue (α : Type) where
  q : List α
  capacity : Option Nat
  stopEvent : Bool
deriving DecidableEq

namespace EvictingQueue

variable {α : Type}

/-- Constructor `EvictingQueue(size)`: empty deque with `maxlen = size`,
stop event unset. -/
def init (size : Option Nat) : EvictingQueue α :=
  ⟨[], size, false⟩

/-- Method `__len__`: the length of `self._q`. -/
def len (s : EvictingQueue α) : Nat :=
  s.q.length

/-- Method `empty()`: `len(self) == 0`. -/
def empty (s : EvictingQueue α) : Bool :=
  len s == 0

/-- Method `stopped()`: `self._stop_event.is_set()`. -/
def stopped (s : EvictingQueue α) : Bool :=
  s.stopEvent

/-- Predicate `_unblocked()`: `self.stopped() or not self.empty()`, the
predicate `get` passes to `Condition.wait_for`. -/
def unblocked (s : EvictingQueue α) : Bool :=
  stopped s || !empty s

/-- Last `c` elements of `l`: what a deque with `maxlen = c` retains of
the sequence of values appended to it. -/
def takeLast (c : Nat) (l : List α) : List α :=
  l.drop (l.length - c)

/-- Method `put(value)`: `self._q.append(value)`; on a deque with a
`maxlen` this evicts from the left whatever exceeds the bound
(`notify_all` is a pure wake-up, with no effect on the state modelled
here). -/
def put (s : EvictingQueue α) (value : α) : EvictingQueue α :=
  match s.capacity with
  | none => { s with q := s.q ++ [value] }
  | some c => { s with q := takeLast c (s.q ++ [value]) }

/-- Method `get(timeout)` at its decision point.  `unblocked` is the value
`wait_for` returned: when false, the timed call raises `QueueTimeout`;
when true, the code raises `QueueStopped` if `stopped()`, and otherwise
pops the oldest element with `popleft`.  (The inner `[]` branch is
unreachable: `unblocked` true and `stopped` false force a non-empty
deque.) -/
def get (s : EvictingQueue α) : Except QueueError (α × EvictingQueue α) :=
  if unblocked s = false then .error .queueTimeout
  else if stopped s then .error .queueStopped
  else match s.q with
    | [] => .error .queueTimeout
    | v :: rest => .ok (v, { s with q := rest })

/-- Method `peek()`: `self._q[-1]`, the newest element; `none` models the
`IndexError` raised on an empty deque. -/
def peek (s : EvictingQueue α) : Option α :=
  s.q.getLast?

/-- Method `peekleft()`: `self._q[0]`, the oldest element; `none` models
the `IndexError` raised on an empty deque. -/
def peekleft (s : EvictingQueue α) : Option α :=
  s.q.head?

/-- Method `stop()`: `self._stop_event.set()` (again, `notify_all` only
wakes waiters). -/
def stop (s : EvictingQueue α) : EvictingQueue α :=
  { s with stopEvent := true }

/-- Eager collection of `iter_timeout(0)`: repeatedly `get` with a zero
timeout, accumulating yielded values in order, until `QueueStopped` or
`QueueTimeout` breaks the loop; returns the collected values and the final
queue state. -/
def iterTimeout0 (s : EvictingQueue α) : List α × EvictingQueue α :=
  match hg : get s with
  | .error _ => ([], s)
  | .ok p =>
    let r := iterTimeout0 p.2
    (p.1 :: r.1, r.2)
termination_by s.q.length
decreasing_by
  unfold get at hg
  split at hg
  · simp at hg
  · split at hg
    · simp at hg
    · split at hg
      · simp at hg
      · rename_i v rest heq
        injection hg with hp
        subst hp
        simp [heq]

/-- Method `flush()`: `list(self.iter_timeout(0))`, together with the
state the loop leaves behind. -/
def flush (s : EvictingQueue α) : List α × EvictingQueue α :=
  iterTimeout0 s

/-- Run a whole sequence of `put` calls, left to right. -/
def putAll (vs : List α) (s : EvictingQueue α) : EvictingQueue α :=
  vs.foldl put s

end EvictingQueue

/-- Client-visible operations on an `EvictingQueue`, used to state
invariants over every operation sequence. -/
inductive QueueOp (α : Type) where
  | put (v : α)
  | get
  | flush
  | peek
  | peekleft
  | stop

namespace QueueOp

variable {α : Type}

/-- Effect of one operation on the queue state.  `get` raising an
exception, and `peek`/`peekleft` always, leave the state unchanged. -/
def step : QueueOp α → EvictingQueue α → EvictingQueue α
  | .put v, s => EvictingQueue.put s v
  | .get, s =>
    match EvictingQueue.get s with
    | .ok p => p.2
    | .error _ => s
  | .flush, s => (EvictingQueue.flush s).2
  | .peek, s => s
  | .peekleft, s => s
  | .stop, s => EvictingQueue.stop s

/-- Run a sequence of operations, left to right. -/
def run (ops : List (QueueOp α)) (s : EvictingQueue α) : EvictingQueue α :=
  ops.foldl (fun s op => step op s) s

end QueueOp

/-! ### Store (theta/store.py) -/

/-- Python `KeyError`, raised by `remove_callback` on an unknown id. -/
inductive StoreError where
  | keyError
deriving DecidableEq, Repr

/-- A task submitted to the executor: `executor.submit(callback, val)`
pairs the callback with the single value it will be applied to.  The
`add_done_callback` logging hook inspects the finished future and has no
effect on the store's state, so it is not modelled. -/
structure Future (α β : Type) where
  callback : α → β
  arg : α

/-- Result the executor eventually produces for a submitted task. -/
def Future.result {α β : Type} (fut : Future α β) : β :=
  fut.callback fut.arg

/-- A `Writer` for one key.  In the source a writer also carries the
`submit` closure produced by `Store._submitter`, which is determined by
the store and the key; here `write` takes the store explicitly.  `token`
models Python object identity: every evaluation of `Writer(...)` inside
`Store.writer` allocates a distinct token, so two writers are the same
instance exactly when their tokens agree. -/
structure Writer (κ : Type) where
  key : κ
  token : Nat
deriving DecidableEq

/-- State of a `Store`.  `writers` is the dict `self.writers`;
`callbacks` maps a key to the insertion-ordered entries of the inner dict
`self.callbacks[key]` (a `defaultdict(dict)`: a missing key reads as the
empty dict, which the total function renders directly); `callbackKeys` is
the reverse index `self._callback_keys`.  Callback ids are strings
`"<key>::<name>::<uuid4 hex>"` in the source; only their uniqueness is
load-bearing, and `uuid.uuid4()` is modelled by the fresh-nonce counter
`nextUuid`.  `nextToken` supplies `Writer` allocation tokens.  The
executor and `self._callback_lock` are not part of the sequential
state. -/
structure Store (κ α β : Type) where
  writers : κ → Option (Writer κ)
  callbacks : κ → List (Nat × (α → β))
  callbackKeys : Nat → Option κ
  nextUuid : Nat
  nextToken : Nat

namespace Store

variable {κ α β : Type} [DecidableEq κ]

/-- Constructor `Store(executor)`: all dicts start empty. -/
def init : Store κ α β :=
  ⟨fun _ => none, fun _ => [], fun _ => none, 0, 0⟩

/-- Assignment `d[id] = f` on a Python dict rendered as an
insertion-ordered association list: overwrite in place when the id is
already present, append otherwise. -/
def dictInsert (l : List (Nat × (α → β))) (id : Nat) (f : α → β) :
    List (Nat × (α → β)) :=
  if l.any (fun p => p.1 == id) then
    l.map (fun p => if p.1 == id then (id, f) else p)
  else l ++ [(id, f)]

/-- Deletion `del d[id]` on the same rendering.  (Whenever the source
executes this statement the id is present — see the registry-consistency
invariant — so no `KeyError` from this `del` is modelled.) -/
def dictErase (l : List (Nat × (α → β))) (id : Nat) : List (Nat × (α → β)) :=
  l.filter (fun p => p.1 != id)

/-- Method `add_callback(key, f)`: generate a fresh id, store the callback
under `self.callbacks[key][id]`, record the reverse index
`self._callback_keys[id] = key`, and return the id. -/
def addCallback (s : Store κ α β) (key : κ) (f : α → β) : Nat × Store κ α β :=
  let id := s.nextUuid
  (id, { s with
    callbacks := fun k =>
      if k = key then dictInsert (s.callbacks key) id f else s.callbacks k
    callbackKeys := fun i => if i = id then some key else s.callbackKeys i
    nextUuid := id + 1 })

/-- Method `remove_callback(id)`: the lookup `self._callback_keys[id]`
raises `KeyError` when the id is unknown, before anything is mutated;
otherwise both the reverse-index entry and the callback entry are
deleted. -/
def removeCallback (s : Store κ α β) (id : Nat) :
    Except StoreError (Store κ α β) :=
  match s.callbackKeys id with
  | none => .error .keyError
  | some key => .ok { s with
      callbackKeys := fun i => if i = id then none else s.callbackKeys i
      callbacks := fun k =>
        if k = key then dictErase (s.callbacks key) id else s.callbacks k }

/-- Method `writer(key)`: return the cached writer for the key, or
construct one, cache it and return it. -/
def writer (s : Store κ α β) (key : κ) : Writer κ × Store κ α β :=
  match s.writers key with
  | some w => (w, s)
  | none =>
    let w : Writer κ := ⟨key, s.nextToken⟩
    (w, { s with
      writers := fun k => if k = key then some w else s.writers k
      nextToken := s.nextToken + 1 })

/-- Body of the closure `Store._submitter(key)` returns: snapshot
`list(self.callbacks[key].values())` and submit one task per callback
with `val` as its sole argument, returning the futures in order. -/
def submit (s : Store κ α β) (key : κ) (val : α) : List (Future α β) :=
  (s.callbacks key).map (fun p => ⟨p.2, val⟩)

/-- Method `Writer.write(value)`: delegates to the submit closure the
writer was constructed with, i.e. `Store._submitter` bound to the
writer's key. -/
def write (s : Store κ α β) (w : Writer κ) (value : α) : List (Future α β) :=
  submit s w.key value

end Store

/-- Client-visible operations on a `Store`, used to state invariants over
every operation sequence. -/
inductive StoreOp (κ α β : Type) where
  | add (key : κ) (f : α → β)
  | remove (id : Nat)
  | getWriter (key : κ)
  | writeOp (key : κ) (value : α)

namespace StoreOp

variable {κ α β : Type} [DecidableEq κ]

/-- Effect of one client operation on the store state.  A failing
`remove_callback` raises before mutating anything; `write` only reads the
registry (its `defaultdict` read of a missing key is observationally the
empty dict). -/
def step : StoreOp κ α β → Store κ α β → Store κ α β
  | .add key f, s => (Store.addCallback s key f).2
  | .remove id, s =>
    match Store.removeCallback s id with
    | .ok s' => s'
    | .error _ => s
  | .getWriter key, s => (Store.writer s key).2
  | .writeOp _ _, s => s

/-- Run a sequence of store operations, left to right. -/
def run (ops : List (StoreOp κ α β)) (s : Store κ α β) : Store κ α β :=
  ops.foldl (fun s op => step op s) s

end StoreOp

/-- Registry consistency: an id is indexed under `k` in the reverse index
`_callback_keys` exactly when an entry with that id is registered in
`callbacks[k]`. -/
def Consistent {κ α β : Type} (s : Store κ α β) : Prop :=
  ∀ (id : Nat) (k : κ), s.callbackKeys id = some k ↔ ∃ f, (id, f) ∈ s.callbacks k

/-- Freshness of the id source: every id appearing anywhere in the
registry was generated by an earlier `add_callback`. -/
def IdsFresh {κ α β : Type} (s : Store κ α β) : Prop :=
  (∀ id, (s.callbackKeys id).isSome → id < s.nextUuid)
  ∧ (∀ (k : κ) (id : Nat) (f : α → β), (id, f) ∈ s.callbacks k → id < s.nextUuid)

/-- States reachable from a fresh store by client operations. -/
def Reachable {κ α β : Type} [DecidableEq κ] (s : Store κ α β) : Prop :=
  ∃ ops : List (StoreOp κ α β), s = StoreOp.run ops Store.init

/-! ### Lemmas about the queue -/

namespace EvictingQueue

variable {α : Type}

theorem takeLast_length_le (c : Nat) (l : List α) : (takeLast c l).length ≤ c := by
  simp only [takeLast, List.length_drop]
  omega

theorem takeLast_append (c : Nat) (a b : List α) :
    takeLast c (takeLast c a ++ b) = takeLast c (a ++ b) := by
  unfold takeLast
  rw [← List.drop_append_of_le_length (Nat.sub_le a.length c), List.drop_drop]
  congr 1
  simp only [List.length_drop, List.length_append]
  omega

theorem put_some_capacity (q : List α) (c : Nat) (st : Bool) (v : α) :
    put ⟨q, some c, st⟩ v = ⟨takeLast c (q ++ [v]), some c, st⟩ := rfl

theorem putAll_q (c : Nat) (st : Bool) (vs : List α) :
    ∀ l : List α, (putAll vs ⟨takeLast c l, some c, st⟩).q = takeLast c (l ++ vs) := by
  induction vs with
  | nil =>
    intro l
    simp [putAll]
  | cons v vs ih =>
    intro l
    show (putAll vs (put ⟨takeLast c l, some c, st⟩ v)).q = _
    rw [put_some_capacity, takeLast_append, ih (l ++ [v])]
    simp

theorem get_stopped_eq (s : EvictingQueue α) (h : stopped s = true) :
    get s = .error .queueStopped := by
  simp [get, unblocked, h]

theorem get_cons_eq (s : EvictingQueue α) (v : α) (rest : List α)
    (hst : stopped s = false) (hq : s.q = v :: rest) :
    get s = .ok (v, { s with q := rest }) := by
  simp [get, unblocked, hst, empty, len, hq]

theorem iterTimeout0_stopped (s : EvictingQueue α) (h : stopped s = true) :
    iterTimeout0 s = ([], s) := by
  unfold iterTimeout0
  split
  · rfl
  · rename_i p hg
    rw [get_stopped_eq s h] at hg
    exact absurd hg (by simp)

theorem iterTimeout0_not_stopped (q : List α) (cap : Option Nat) :
    iterTimeout0 ⟨q, cap, false⟩ = (q, ⟨[], cap, false⟩) := by
  induction q with
  | nil =>
    unfold iterTimeout0
    split
    · rfl
    · rename_i p hg
      simp [get, unblocked, stopped, empty, len] at hg
  | cons v rest ih =>
    unfold iterTimeout0
    split
    · rename_i e hg
      rw [get_cons_eq ⟨v :: rest, cap, false⟩ v rest rfl rfl] at hg
      exact absurd hg (by simp)
    · rename_i p hg
      rw [get_cons_eq ⟨v :: rest, cap, false⟩ v rest rfl rfl] at hg
      injection hg with hp
      subst hp
      simp [ih]

theorem iterTimeout0_stopEvent (s : EvictingQueue α) :
    (iterTimeout0 s).2.stopEvent = s.stopEvent := by
  obtain ⟨q, cap, st⟩ := s
  cases st
  · rw [iterTimeout0_not_stopped]
  · rw [iterTimeout0_stopped ⟨q, cap, true⟩ rfl]

theorem get_ok_stopEvent {s : EvictingQueue α} {p : α × EvictingQueue α}
    (h : get s = .ok p) : p.2.stopEvent = s.stopEvent := by
  unfold get at h
  split at h
  · exact absurd h (by simp)
  · split at h
    · exact absurd h (by simp)
    · split at h
      · exact absurd h (by simp)
      · injection h with hp
        subst hp
        rfl

end EvictingQueue

namespace QueueOp

variable {α : Type}

theorem step_stopEvent (op : QueueOp α) (s : EvictingQueue α)
    (h : s.stopEvent = true) : (step op s).stopEvent = true := by
  cases op with
  | put v =>
    obtain ⟨q, cap, st⟩ := s
    cases cap <;> simpa [step, EvictingQueue.put] using h
  | get =>
    have hstep : step QueueOp.get s
        = match EvictingQueue.get s with
          | .ok p => p.2
          | .error _ => s := rfl
    rw [hstep]
    cases hgs : EvictingQueue.get s with
    | ok p => exact (EvictingQueue.get_ok_stopEvent hgs).trans h
    | error e => exact h
  | flush =>
    have hstep : step QueueOp.flush s = (EvictingQueue.iterTimeout0 s).2 := rfl
    rw [hstep, EvictingQueue.iterTimeout0_stopEvent]
    exact h
  | peek => exact h
  | peekleft => exact h
  | stop => rfl

end QueueOp

namespace EvictingQueue

theorem getLast?_drop_of_ne_nil {α : Type} (l : List α) (n : Nat)
    (h : l.drop n ≠ []) : (l.drop n).getLast? = l.getLast? := by
  conv_rhs => rw [← List.take_append_drop n l]
  rw [List.getLast?_append]
  cases hg : (l.drop n).getLast? with
  | none => exact absurd (List.getLast?_eq_none_iff.mp hg) h
  | some a => rfl

end EvictingQueue

/-! ### Lemmas about the store -/

namespace Store

variable {κ α β : Type} [DecidableEq κ]

theorem addCallback_fst (s : Store κ α β) (key : κ) (f : α → β) :
    (addCallback s key f).1 = s.nextUuid := rfl

theorem addCallback_snd (s : Store κ α β) (key : κ) (f : α → β) :
    (addCallback s key f).2 = { s with
      callbacks := fun k =>
        if k = key then dictInsert (s.callbacks key) s.nextUuid f
        else s.callbacks k
      callbackKeys := fun i =>
        if i = s.nextUuid then some key else s.callbackKeys i
      nextUuid := s.nextUuid + 1 } := rfl

theorem removeCallback_none (s : Store κ α β) (id : Nat)
    (h : s.callbackKeys id = none) :
    removeCallback s id = .error .keyError := by
  unfold removeCallback
  rw [h]

theorem removeCallback_some (s : Store κ α β) (id : Nat) (key : κ)
    (h : s.callbackKeys id = some key) :
    removeCallback s id = .ok { s with
      callbackKeys := fun i => if i = id then none else s.callbackKeys i
      callbacks := fun k =>
        if k = key then dictErase (s.callbacks key) id else s.callbacks k } := by
  unfold removeCallback
  rw [h]

theorem writer_cached_eq (s : Store κ α β) (key : κ) (w : Writer κ)
    (h : s.writers key = some w) : writer s key = (w, s) := by
  unfold writer
  rw [h]

theorem writer_new_eq (s : Store κ α β) (key : κ)
    (h : s.writers key = none) :
    writer s key = (⟨key, s.nextToken⟩, { s with
      writers := fun k =>
        if k = key then some ⟨key, s.nextToken⟩ else s.writers k
      nextToken := s.nextToken + 1 }) := by
  unfold writer
  rw [h]

theorem mem_dictInsert_self (l : List (Nat × (α → β))) (id : Nat) (f : α → β) :
    (id, f) ∈ dictInsert l id f := by
  unfold dictInsert
  split
  · rename_i h
    simp only [List.any_eq_true, beq_iff_eq] at h
    obtain ⟨p, hp, hid⟩ := h
    refine List.mem_map.mpr ⟨p, hp, ?_⟩
    simp [hid]
  · simp

theorem dictInsert_fresh (l : List (Nat × (α → β))) (id : Nat) (f : α → β)
    (h : ∀ p ∈ l, p.1 ≠ id) : dictInsert l id f = l ++ [(id, f)] := by
  have hany : l.any (fun p => p.1 == id) = false := by
    rw [List.any_eq_false]
    intro p hp
    simpa using h p hp
  simp [dictInsert, hany]

theorem mem_dictErase (l : List (Nat × (α → β))) (id i : Nat) (g : α → β) :
    (i, g) ∈ dictErase l id ↔ (i, g) ∈ l ∧ i ≠ id := by
  simp [dictErase, List.mem_filter]

end Store

/-! ### Claims about the queue -/

/-- C1 counterexample: on a stopped queue whose buffer still holds the
element `5`, `get` raises `QueueStopped` instead of returning and removing
the buffered element — the stop flag wins even when the buffer is
non-empty at the decision point. -/
theorem get_stop_priority_counterexample :
    EvictingQueue.stopped (⟨[5], none, true⟩ : EvictingQueue Nat) = true
  ∧ (⟨[5], none, true⟩ : EvictingQueue Nat).q ≠ []
  ∧ EvictingQueue.get (⟨[5], none, true⟩ : EvictingQueue Nat)
      = .error .queueStopped :=
  ⟨rfl, by simp, rfl⟩

/-- C1 (amended): at its decision point `get` raises `QueueStopped` exactly
when the queue is stopped — regardless of buffer contents — and returns
(and removes) the oldest buffered element whenever the queue is not
stopped and the buffer is non-empty. -/
theorem get_stop_priority {α : Type} (s : EvictingQueue α) :
    (EvictingQueue.get s = .error .queueStopped
      ↔ EvictingQueue.stopped s = true)
  ∧ (EvictingQueue.stopped s = false → ∀ (v : α) (rest : List α),
      s.q = v :: rest → EvictingQueue.get s = .ok (v, { s with q := rest })) := by
  obtain ⟨q, cap, st⟩ := s
  constructor
  · cases st
    · cases q with
      | nil =>
        simp [EvictingQueue.get, EvictingQueue.unblocked, EvictingQueue.stopped,
          EvictingQueue.empty, EvictingQueue.len]
      | cons v rest =>
        simp [EvictingQueue.get, EvictingQueue.unblocked, EvictingQueue.stopped,
          EvictingQueue.empty, EvictingQueue.len]
    · simp [EvictingQueue.get_stopped_eq ⟨q, cap, true⟩ rfl, EvictingQueue.stopped]
  · intro hst v rest hq
    exact EvictingQueue.get_cons_eq _ v rest hst hq

/-- C1 witness: a non-stopped queue holding `7, 8` returns `7` from `get`
and keeps `8`. -/
theorem get_stop_priority_witness :
    EvictingQueue.get (⟨[7, 8], none, false⟩ : EvictingQueue Nat)
      = .ok (7, ⟨[8], none, false⟩) :=
  (get_stop_priority ⟨[7, 8], none, false⟩).2 rfl 7 [8] rfl

/-- C2: starting from a fresh queue of capacity `c ≥ 1`, after `c + k`
puts the buffer holds exactly the last `c` values put, in arrival order;
after every intermediate prefix of the puts the buffer length is at most
`c`; and a put on a full queue drops the oldest element first. -/
theorem evicting_put_capacity {α : Type} (c k : Nat) (vs : List α) (hc : 1 ≤ c)
    (hlen : vs.length = c + k) :
    (EvictingQueue.putAll vs (EvictingQueue.init (some c))).q = vs.drop k
  ∧ (∀ i, EvictingQueue.len
      (EvictingQueue.putAll (vs.take i) (EvictingQueue.init (some c))) ≤ c)
  ∧ (∀ (s : EvictingQueue α) (v : α), s.capacity = some c →
      EvictingQueue.len s = c → (EvictingQueue.put s v).q = s.q.tail ++ [v]) := by
  have hinit : (EvictingQueue.init (some c) : EvictingQueue α)
      = ⟨EvictingQueue.takeLast c [], some c, false⟩ := by
    unfold EvictingQueue.init EvictingQueue.takeLast
    simp
  refine ⟨?_, ?_, ?_⟩
  · rw [hinit, EvictingQueue.putAll_q]
    show ([] ++ vs).drop (([] ++ vs).length - c) = vs.drop k
    simp only [List.nil_append]
    congr 1
    omega
  · intro i
    rw [EvictingQueue.len, hinit, EvictingQueue.putAll_q]
    exact EvictingQueue.takeLast_length_le c _
  · intro s v hcap hl
    obtain ⟨q, cap, st⟩ := s
    have hc' : cap = some c := hcap
    subst hc'
    have hq : q.length = c := hl
    rw [EvictingQueue.put_some_capacity]
    show EvictingQueue.takeLast c (q ++ [v]) = q.tail ++ [v]
    unfold EvictingQueue.takeLast
    cases q with
    | nil =>
      simp at hq
      omega
    | cons a t =>
      have hq' : t.length + 1 = c := by simpa using hq
      have hidx : ((a :: t) ++ [v]).length - c = 1 := by
        simp only [List.length_append, List.length_cons, List.length_nil]
        omega
      rw [hidx]
      simp

/-- C2 witness: capacity 2 with puts `[1, 2, 3]` ends with buffer `[2, 3]`. -/
theorem evicting_put_capacity_witness :
    1 ≤ 2 ∧ ([1, 2, 3] : List Nat).length = 2 + 1
  ∧ (EvictingQueue.putAll [1, 2, 3]
      (EvictingQueue.init (some 2) : EvictingQueue Nat)).q = [1, 2, 3].drop 1 :=
  ⟨by decide, by decide,
    (evicting_put_capacity 2 1 [1, 2, 3] (by decide) (by decide)).1⟩

/-- C5 counterexample: on a stopped queue whose buffer holds `5`, `flush`
returns no elements and leaves the buffer untouched, so `flush` does not
leave every queue empty. -/
theorem flush_stopped_counterexample :
    EvictingQueue.flush (⟨[5], none, true⟩ : EvictingQueue Nat)
      = ([], ⟨[5], none, true⟩)
  ∧ (⟨[5], none, true⟩ : EvictingQueue Nat).q ≠ [] :=
  ⟨EvictingQueue.iterTimeout0_stopped ⟨[5], none, true⟩ rfl, by simp⟩

/-- C5 (amended): on a non-stopped queue `flush` returns exactly the
buffered elements in FIFO order and leaves the queue empty; on a stopped
queue it returns nothing and leaves the buffer untouched; in every case it
is the eager collection of `iter_timeout(0)`. -/
theorem flush_drains {α : Type} (s : EvictingQueue α) :
    (EvictingQueue.stopped s = false →
      EvictingQueue.flush s = (s.q, { s with q := [] }))
  ∧ (EvictingQueue.stopped s = true → EvictingQueue.flush s = ([], s))
  ∧ EvictingQueue.flush s = EvictingQueue.iterTimeout0 s := by
  refine ⟨?_, fun h => EvictingQueue.iterTimeout0_stopped s h, rfl⟩
  intro h
  obtain ⟨q, cap, st⟩ := s
  have hst : st = false := h
  subst hst
  exact EvictingQueue.iterTimeout0_not_stopped q cap

/-- C5 witness: a non-stopped queue containing `[0, 1]` flushes to exactly
`[0, 1]` and is left empty. -/
theorem flush_drains_witness :
    EvictingQueue.flush (⟨[0, 1], none, false⟩ : EvictingQueue Nat)
      = ([0, 1], ⟨[], none, false⟩) :=
  (flush_drains ⟨[0, 1], none, false⟩).1 rfl

/-- C7: `peek` returns, without removing anything, the most recently put
value whenever the queue is non-empty after the put; `peekleft` returns
the value any successful next `get` returns; and on an empty queue both
fail with the out-of-range `IndexError`, modelled as `none`. -/
theorem peek_peekleft_spec {α : Type} (s : EvictingQueue α) :
    (∀ v : α, (EvictingQueue.put s v).q ≠ [] →
      EvictingQueue.peek (EvictingQueue.put s v) = some v)
  ∧ (∀ p : α × EvictingQueue α, EvictingQueue.get s = .ok p →
      EvictingQueue.peekleft s = some p.1)
  ∧ (s.q = [] → EvictingQueue.peek s = none ∧ EvictingQueue.peekleft s = none)
  ∧ (s.q ≠ [] →
      (EvictingQueue.peek s).isSome ∧ (EvictingQueue.peekleft s).isSome) := by
  refine ⟨?_, ?_, ?_, ?_⟩
  · intro v hne
    obtain ⟨q, cap, st⟩ := s
    cases cap with
    | none =>
      show (q ++ [v]).getLast? = some v
      exact List.getLast?_concat q
    | some c =>
      show (EvictingQueue.takeLast c (q ++ [v])).getLast? = some v
      unfold EvictingQueue.takeLast
      rw [EvictingQueue.getLast?_drop_of_ne_nil _ _ hne]
      exact List.getLast?_concat q
  · intro p hp
    unfold EvictingQueue.get at hp
    split at hp
    · exact absurd hp (by simp)
    · split at hp
      · exact absurd hp (by simp)
      · split at hp
        · exact absurd hp (by simp)
        · rename_i v rest heq
          injection hp with hp
          subst hp
          simp [EvictingQueue.peekleft, heq]
  · intro hq
    simp [EvictingQueue.peek, EvictingQueue.peekleft, hq]
  · intro hq
    obtain ⟨q, cap, st⟩ := s
    cases q with
    | nil => exact absurd rfl hq
    | cons a t => simp [EvictingQueue.peek, EvictingQueue.peekleft]

/-- C7 witness: putting `9` on a queue of capacity 2 holding `[1]` makes
`peek` report `9`, and `peekleft` reports the `1` that `get` returns. -/
theorem peek_peekleft_witness :
    EvictingQueue.peek
      (EvictingQueue.put (⟨[1], some 2, false⟩ : EvictingQueue Nat) 9) = some 9
  ∧ EvictingQueue.peekleft (⟨[1], some 2, false⟩ : EvictingQueue Nat) = some 1 :=
  ⟨(peek_peekleft_spec ⟨[1], some 2, false⟩).1 9 (by decide),
   (peek_peekleft_spec ⟨[1], some 2, false⟩).2.1 (1, ⟨[], some 2, false⟩) rfl⟩

/-- C8: the stop flag is monotonic — once `stopped()` is true, no sequence
of queue operations ever resets it — and a second `stop()` leaves the
whole state unchanged. -/
theorem stopped_monotonic {α : Type} (s : EvictingQueue α)
    (ops : List (QueueOp α)) (h : EvictingQueue.stopped s = true) :
    EvictingQueue.stopped (QueueOp.run ops s) = true
  ∧ EvictingQueue.stop (EvictingQueue.stop s) = EvictingQueue.stop s := by
  constructor
  · induction ops generalizing s with
    | nil => exact h
    | cons op ops ih => exact ih (QueueOp.step op s) (QueueOp.step_stopEvent op s h)
  · rfl

/-- C8 witness: starting from a stopped queue, a run of put, get, flush,
stop and peek operations leaves the queue stopped. -/
theorem stopped_monotonic_witness :
    EvictingQueue.stopped (QueueOp.run
        [QueueOp.put 3, QueueOp.get, QueueOp.flush, QueueOp.stop, QueueOp.peek]
        (⟨[], none, true⟩ : EvictingQueue Nat)) = true
  ∧ EvictingQueue.stop (EvictingQueue.stop (⟨[], none, true⟩ : EvictingQueue Nat))
      = EvictingQueue.stop ⟨[], none, true⟩ :=
  stopped_monotonic ⟨[], none, true⟩
    [QueueOp.put 3, QueueOp.get, QueueOp.flush, QueueOp.stop, QueueOp.peek] rfl

/-- C9: `stop` changes only the stop flag — the buffer, the capacity and
the results of `len`, `peek` and `peekleft` are identical before and
after. -/
theorem stop_frame {α : Type} (s : EvictingQueue α) :
    (EvictingQueue.stop s).q = s.q
  ∧ (EvictingQueue.stop s).capacity = s.capacity
  ∧ EvictingQueue.len (EvictingQueue.stop s) = EvictingQueue.len s
  ∧ EvictingQueue.peek (EvictingQueue.stop s) = EvictingQueue.peek s
  ∧ EvictingQueue.peekleft (EvictingQueue.stop s) = EvictingQueue.peekleft s :=
  ⟨rfl, rfl, rfl, rfl, rfl⟩

/-! ### Invariant lemmas for the store -/

section StoreInvariants

variable {κ α β : Type} [DecidableEq κ]

theorem storeInv_init :
    Consistent (Store.init : Store κ α β) ∧ IdsFresh (Store.init : Store κ α β) := by
  refine ⟨fun id k => ?_, fun id h => ?_, fun k id f h => ?_⟩
  · simp [Store.init]
  · simp [Store.init] at h
  · simp [Store.init] at h

theorem storeInv_add (s : Store κ α β) (key : κ) (f : α → β)
    (h : Consistent s ∧ IdsFresh s) :
    Consistent (Store.addCallback s key f).2 ∧ IdsFresh (Store.addCallback s key f).2 := by
  obtain ⟨hcon, hfresh⟩ := h
  have hins : Store.dictInsert (s.callbacks key) s.nextUuid f
      = s.callbacks key ++ [(s.nextUuid, f)] :=
    Store.dictInsert_fresh _ _ _
      (fun p hp => Nat.ne_of_lt (hfresh.2 key p.1 p.2 hp))
  rw [Store.addCallback_snd, hins]
  constructor
  · intro i k
    dsimp only
    by_cases hi : i = s.nextUuid
    · subst hi
      rw [if_pos rfl]
      by_cases hk : k = key
      · subst hk
        rw [if_pos rfl]
        constructor
        · intro _
          exact ⟨f, by simp⟩
        · intro _
          rfl
      · rw [if_neg hk]
        constructor
        · intro hkk
          exact absurd (Option.some.inj hkk).symm hk
        · rintro ⟨g, hg⟩
          exact absurd (hfresh.2 k _ _ hg) (lt_irrefl _)
    · rw [if_neg hi]
      by_cases hk : k = key
      · subst hk
        rw [if_pos rfl, hcon i k]
        constructor
        · rintro ⟨g, hg⟩
          exact ⟨g, List.mem_append.mpr (Or.inl hg)⟩
        · rintro ⟨g, hg⟩
          rcases List.mem_append.mp hg with h1 | h2
          · exact ⟨g, h1⟩
          · simp at h2
            exact absurd h2.1 hi
      · rw [if_neg hk]
        exact hcon i k
  · constructor
    · intro i hi
      dsimp only at hi ⊢
      by_cases h' : i = s.nextUuid
      · omega
      · rw [if_neg h'] at hi
        exact Nat.lt_succ_of_lt (hfresh.1 i hi)
    · intro k i g hg
      dsimp only at hg ⊢
      by_cases hk : k = key
      · subst hk
        rw [if_pos rfl] at hg
        rcases List.mem_append.mp hg with h1 | h2
        · exact Nat.lt_succ_of_lt (hfresh.2 _ _ _ h1)
        · simp at h2
          omega
      · rw [if_neg hk] at hg
        exact Nat.lt_succ_of_lt (hfresh.2 _ _ _ hg)

theorem storeInv_remove (s : Store κ α β) (id : Nat)
    (h : Consistent s ∧ IdsFresh s) :
    Consistent (StoreOp.step (.remove id) s) ∧ IdsFresh (StoreOp.step (.remove id) s) := by
  obtain ⟨hcon, hfresh⟩ := h
  cases hk : s.callbackKeys id with
  | none =>
    have hstep : StoreOp.step (.remove id) s = s := by
      show (match Store.removeCallback s id with
        | .ok s' => s'
        | .error _ => s) = s
      rw [Store.removeCallback_none s id hk]
    rw [hstep]
    exact ⟨hcon, hfresh⟩
  | some key0 =>
    have hstep : StoreOp.step (.remove id) s = { s with
        callbackKeys := fun i => if i = id then none else s.callbackKeys i
        callbacks := fun k =>
          if k = key0 then Store.dictErase (s.callbacks key0) id
          else s.callbacks k } := by
      show (match Store.removeCallback s id with
        | .ok s' => s'
        | .error _ => s) = _
      rw [Store.removeCallback_some s id key0 hk]
    rw [hstep]
    constructor
    · intro i k
      dsimp only
      by_cases hi : i = id
      · subst hi
        rw [if_pos rfl]
        constructor
        · intro hcontra
          exact absurd hcontra (by simp)
        · rintro ⟨g, hg⟩
          by_cases hkk : k = key0
          · subst hkk
            rw [if_pos rfl, Store.mem_dictErase] at hg
            exact absurd rfl hg.2
          · rw [if_neg hkk] at hg
            have h2 := (hcon i k).mpr ⟨g, hg⟩
            rw [hk] at h2
            exact absurd (Option.some.inj h2).symm hkk
      · rw [if_neg hi]
        by_cases hkk : k = key0
        · subst hkk
          rw [if_pos rfl, hcon i k]
          constructor
          · rintro ⟨g, hg⟩
            exact ⟨g, (Store.mem_dictErase _ _ _ _).mpr ⟨hg, hi⟩⟩
          · rintro ⟨g, hg⟩
            exact ⟨g, ((Store.mem_dictErase _ _ _ _).mp hg).1⟩
        · rw [if_neg hkk]
          exact hcon i k
    · constructor
      · intro i hi
        dsimp only at hi ⊢
        by_cases h' : i = id
        · rw [if_pos h'] at hi
          simp at hi
        · rw [if_neg h'] at hi
          exact hfresh.1 i hi
      · intro k i g hg
        dsimp only at hg ⊢
        by_cases hkk : k = key0
        · subst hkk
          rw [if_pos rfl, Store.mem_dictErase] at hg
          exact hfresh.2 _ _ _ hg.1
        · rw [if_neg hkk] at hg
          exact hfresh.2 _ _ _ hg

theorem storeInv_writer (s : Store κ α β) (key : κ)
    (h : Consistent s ∧ IdsFresh s) :
    Consistent (Store.writer s key).2 ∧ IdsFresh (Store.writer s key).2 := by
  obtain ⟨hcon, hfresh⟩ := h
  cases hw : s.writers key with
  | some w =>
    rw [Store.writer_cached_eq s key w hw]
    exact ⟨hcon, hfresh⟩
  | none =>
    rw [Store.writer_new_eq s key hw]
    exact ⟨fun i k => hcon i k, fun i hi => hfresh.1 i hi,
      fun k i g hg => hfresh.2 k i g hg⟩

theorem storeInv_step (op : StoreOp κ α β) (s : Store κ α β)
    (h : Consistent s ∧ IdsFresh s) :
    Consistent (StoreOp.step op s) ∧ IdsFresh (StoreOp.step op s) := by
  cases op with
  | add key f => exact storeInv_add s key f h
  | remove id => exact storeInv_remove s id h
  | getWriter key => exact storeInv_writer s key h
  | writeOp k v => exact h

theorem storeInv_run (ops : List (StoreOp κ α β)) (s : Store κ α β)
    (h : Consistent s ∧ IdsFresh s) :
    Consistent (StoreOp.run ops s) ∧ IdsFresh (StoreOp.run ops s) := by
  induction ops generalizing s with
  | nil => exact h
  | cons op ops ih => exact ih (StoreOp.step op s) (storeInv_step op s h)

end StoreInvariants

/-! ### Claims about the store -/

/-- C3: `write` submits exactly one task per callback registered under the
writer's key at call time (in registration order), each with the written
value as its sole argument; a callback just registered under that key is
dispatched to by a subsequent write; and once a removal has completed, a
write dispatches exactly to the remaining registrations, no longer to the
removed one. -/
theorem write_dispatch {κ α β : Type} [DecidableEq κ]
    (s : Store κ α β) (w : Writer κ) (v : α) :
    ((Store.write s w v).map Future.callback
      = (s.callbacks w.key).map Prod.snd)
  ∧ (∀ fut ∈ Store.write s w v, fut.arg = v)
  ∧ (∀ f : α → β,
      (⟨f, v⟩ : Future α β) ∈ Store.write (Store.addCallback s w.key f).2 w v)
  ∧ (∀ (id : Nat) (s' : Store κ α β), s.callbackKeys id = some w.key →
      Store.removeCallback s id = .ok s' →
      Store.write s' w v
        = ((s.callbacks w.key).filter (fun p => p.1 != id)).map
            (fun p => (⟨p.2, v⟩ : Future α β))) := by
  refine ⟨?_, ?_, ?_, ?_⟩
  · simp only [Store.write, Store.submit, List.map_map]
    rfl
  · intro fut hf
    simp only [Store.write, Store.submit, List.mem_map] at hf
    obtain ⟨p, _, hp⟩ := hf
    rw [← hp]
  · intro f
    have hmem : (s.nextUuid, f) ∈ (Store.addCallback s w.key f).2.callbacks w.key := by
      rw [Store.addCallback_snd]
      dsimp only
      rw [if_pos rfl]
      exact Store.mem_dictInsert_self _ _ _
    exact List.mem_map.mpr ⟨(s.nextUuid, f), hmem, rfl⟩
  · intro id s' hkey hrem
    rw [Store.removeCallback_some s id w.key hkey] at hrem
    injection hrem with hs'
    subst hs'
    show Store.submit _ w.key v = _
    unfold Store.submit
    dsimp only
    rw [if_pos rfl]
    rfl

/-- C3 witness: registering `Nat.succ` under key 0 in a fresh store makes
a write of `5` dispatch the task applying `Nat.succ` to `5`; after the
registration is removed, a write of `5` dispatches nothing. -/
theorem write_dispatch_witness :
    (⟨Nat.succ, 5⟩ : Future Nat Nat)
      ∈ Store.write
          (Store.addCallback (Store.init : Store Nat Nat Nat) 0 Nat.succ).2
          ⟨0, 0⟩ 5
  ∧ Store.write
      (StoreOp.step (StoreOp.remove 0)
        (Store.addCallback (Store.init : Store Nat Nat Nat) 0 Nat.succ).2)
      ⟨0, 0⟩ 5 = [] := by
  constructor
  · exact (write_dispatch Store.init ⟨0, 0⟩ 5).2.2.1 Nat.succ
  · exact ((write_dispatch
      (Store.addCallback (Store.init : Store Nat Nat Nat) 0 Nat.succ).2
      ⟨0, 0⟩ 5).2.2.2 0
      (StoreOp.step (StoreOp.remove 0)
        (Store.addCallback (Store.init : Store Nat Nat Nat) 0 Nat.succ).2)
      rfl rfl).trans rfl

/-- C4: `remove_callback` raises `KeyError` exactly when the id is not
currently registered; after `add_callback` returns an id, a first removal
of that id succeeds and a second removal of the same id raises — removal
is not idempotent. -/
theorem remove_not_found_iff {κ α β : Type} [DecidableEq κ]
    (s : Store κ α β) (id : Nat) (key : κ) (f : α → β) :
    (Store.removeCallback s id = .error .keyError ↔ s.callbackKeys id = none)
  ∧ (∃ s' : Store κ α β,
      Store.removeCallback (Store.addCallback s key f).2
          (Store.addCallback s key f).1 = .ok s'
      ∧ Store.removeCallback s' (Store.addCallback s key f).1
          = .error .keyError) := by
  constructor
  · cases hk : s.callbackKeys id with
    | none => simp [Store.removeCallback_none s id hk]
    | some k0 => simp [Store.removeCallback_some s id k0 hk]
  · have h1 : (Store.addCallback s key f).2.callbackKeys
        (Store.addCallback s key f).1 = some key := by
      rw [Store.addCallback_snd, Store.addCallback_fst]
      dsimp only
      rw [if_pos rfl]
    refine ⟨_, Store.removeCallback_some _ _ key h1, ?_⟩
    apply Store.removeCallback_none
    dsimp only
    rw [if_pos rfl]

/-- C4 witness: removing a never-issued id from a fresh store raises, and
an add followed by two removals of the returned id has the first succeed
and the second raise. -/
theorem remove_not_found_witness :
    Store.removeCallback (Store.init : Store Nat Nat Nat) 7
      = .error .keyError :=
  ((remove_not_found_iff (Store.init : Store Nat Nat Nat) 7 0 Nat.succ).1).mpr rfl

/-- C6: writers are created lazily and cached — a fresh store has no
writer for any key, the first `writer(key)` call allocates one and stores
it, and every subsequent call returns that identical instance with the
store unchanged (no new allocation). -/
theorem writer_cached {κ α β : Type} [DecidableEq κ]
    (s : Store κ α β) (key : κ) :
    ((Store.init : Store κ α β).writers key = none)
  ∧ ((Store.writer s key).2.writers key = some (Store.writer s key).1)
  ∧ (Store.writer (Store.writer s key).2 key).1 = (Store.writer s key).1
  ∧ (Store.writer (Store.writer s key).2 key).2 = (Store.writer s key).2
  ∧ (s.writers key = none →
      (Store.writer s key).1 = ⟨key, s.nextToken⟩
      ∧ (Store.writer s key).2.nextToken = s.nextToken + 1) := by
  cases hw : s.writers key with
  | some w =>
    have hc := Store.writer_cached_eq s key w hw
    refine ⟨rfl, ?_, ?_, ?_, ?_⟩
    · rw [hc]
      exact hw
    · rw [hc]
      dsimp only
      rw [hc]
    · rw [hc]
      dsimp only
      rw [hc]
    · intro h'
      exact absurd h' (by simp)
  | none =>
    have hnew := Store.writer_new_eq s key hw
    have h2 : ((Store.writer s key).2).writers key = some ⟨key, s.nextToken⟩ := by
      rw [hnew]
      dsimp only
      rw [if_pos rfl]
    have h3 := Store.writer_cached_eq (Store.writer s key).2 key _ h2
    refine ⟨rfl, ?_, ?_, ?_, ?_⟩
    · rw [h2, hnew]
    · rw [h3, hnew]
    · rw [h3]
    · intro _
      rw [hnew]
      exact ⟨rfl, rfl⟩

/-- C6 witness: in a fresh store the first `writer(0)` call returns the
newly allocated writer, and a second call returns the identical
instance. -/
theorem writer_cached_witness :
    (Store.writer (Store.init : Store Nat Nat Nat) 0).1 = ⟨0, 0⟩
  ∧ (Store.writer (Store.writer (Store.init : Store Nat Nat Nat) 0).2 0).1
      = (Store.writer (Store.init : Store Nat Nat Nat) 0).1 :=
  ⟨((writer_cached (Store.init : Store Nat Nat Nat) 0).2.2.2.2 rfl).1,
   (writer_cached (Store.init : Store Nat Nat Nat) 0).2.2.1⟩

/-- C10: in every store state reachable from a fresh store by any sequence
of add, remove, writer and write operations, the callback registry and its
reverse index are mutually consistent — an id is indexed under a key
exactly when it is registered under that key — and a `remove_callback`
that raises `KeyError` leaves the state unchanged. -/
theorem store_registry_consistent {κ α β : Type} [DecidableEq κ]
    (s : Store κ α β) (h : Reachable s) :
    Consistent s
  ∧ (∀ id : Nat, Store.removeCallback s id = .error .keyError →
      StoreOp.step (.remove id) s = s) := by
  constructor
  · obtain ⟨ops, rfl⟩ := h
    exact (storeInv_run ops Store.init storeInv_init).1
  · intro id hid
    show (match Store.removeCallback s id with
      | .ok s' => s'
      | .error _ => s) = s
    rw [hid]

/-- C10 witness: the consistency invariant holds at the state reached by
adding two callbacks under different keys, removing one, attempting a
removal of an unknown id, obtaining a writer and performing a write. -/
theorem store_registry_consistent_witness :
    Consistent (StoreOp.run
      [StoreOp.add 0 Nat.succ, StoreOp.add 1 Nat.succ, StoreOp.remove 0,
       StoreOp.remove 5, StoreOp.getWriter 0, StoreOp.writeOp 0 3]
      (Store.init : Store Nat Nat Nat)) :=
  (store_registry_consistent _ ⟨_, rfl⟩).1

end Theta
